import Mathlib

/-!
# Verification of the CEDEAR calculator core (`app.py`)

A shallow embedding of the extraction / parsing / calculation core of the
Streamlit CEDEAR price calculator.  Text is modelled as `List Char`, Python
dicts as insertion-ordered association lists, Python floats as exact
rationals (`ℚ`) with `round(x, 2)` modelled as decimal rounding
half-to-even, and the three regular expressions of the source
(`TICKER_RE`, `RATIO_RE` and the two inline `re.findall` patterns) as
explicit bounded backtracking matchers that reproduce Python `re`
semantics (leftmost scan, ordered alternation, greedy / lazy
quantifiers, word boundaries) for the ASCII texts the app processes.
-/

namespace Cedear

/-- ASCII word character, Python's `\w` restricted to ASCII (`[A-Za-z0-9_]`). -/
def isWordChar (c : Char) : Bool := c.isAlphanum || c = '_'

/-- Uppercase ASCII letter `[A-Z]` (code points 65–90). -/
def isUpperCh (c : Char) : Bool := 65 ≤ c.toNat && c.toNat ≤ 90

/-- ASCII digit `[0-9]` (code points 48–57). -/
def isDigitCh (c : Char) : Bool := 48 ≤ c.toNat && c.toNat ≤ 57

/-- Character class `[A-Z0-9.]` used by both inline `re.findall` patterns. -/
def isTickClass (c : Char) : Bool := isUpperCh c || isDigitCh c || c = '.'

/-- ASCII whitespace, Python's `\s` restricted to ASCII. -/
def isSpaceCh (c : Char) : Bool :=
  c = ' ' || c = '\t' || c = '\n' || c = '\r' || c = '\x0b' || c = '\x0c'

/-- First `some` value of `f` over the list, in list order; the backbone of
ordered-alternative regex backtracking. -/
def firstSome? : List α → (α → Option β) → Option β
  | [], _ => none
  | a :: l, f => match f a with
    | some b => some b
    | none => firstSome? l f

/-- Value of `int(s)` on a string of ASCII digits. -/
def natOfDigits (l : List Char) : Nat :=
  l.foldl (fun n c => n * 10 + (c.toNat - '0'.toNat)) 0

/-- The `STOPWORDS` set of `app.py` (keys as character lists). -/
def STOPWORDS : List (List Char) :=
  ["CEDEAR", "CEDEARS", "BYMA", "BOLSAS", "MERCADOS", "ARGENTINOS", "RATIO",
   "VALOR", "SUBYACENTE", "ISIN", "CUSIP", "NASDAQ", "NYSE", "LSE", "AMEX",
   "USD", "ARS", "ETF", "SEDE", "ACCION", "EMPRESA", "SECTOR", "INDEX",
   "TABLE", "PAGE", "VOL", "CUSPID", "ADR", "RATIO:", "CED", "PROGRAMAS",
   "BOLSASY", "MERCADOSARGENTINOS", "DE", "LA", "EL", "EN", "SUBYACENTE:",
   "RATIOCEDEAR/VALORSUBYACENTE", "RATIOCEDEAR", "VALORSUBYACENTE",
   "ENERO", "FEBRERO", "MARZO", "ABRIL", "MAYO", "JUNIO", "JULIO", "AGOSTO",
   "SEPTIEMBRE", "OCTUBRE", "NOVIEMBRE", "DICIEMBRE",
   "MONDAY", "TUESDAY", "WEDNESDAY", "THURSDAY", "FRIDAY", "SATURDAY",
   "SUNDAY"].map String.toList

/-- Full match of `TICKER_RE = ^[A-Z]{1,6}(?:\.[A-Z]{1,2})?$`. -/
def tickerShape (l : List Char) : Bool :=
  let head := l.takeWhile isUpperCh
  let rest := l.drop head.length
  1 ≤ head.length && head.length ≤ 6 &&
    (rest.isEmpty ||
      (rest.head? = some '.' &&
        ((rest.drop 1).all isUpperCh && 1 ≤ (rest.drop 1).length &&
          (rest.drop 1).length ≤ 2)))

/-- Predicate `is_ticker_token`: matches `TICKER_RE` and is not a stopword. -/
def is_ticker_token (tok : List Char) : Bool :=
  tickerShape tok && !(STOPWORDS.contains tok)

/-- Model of `re.sub(r"[^A-Z\.]", "", tk)`: keep only uppercase letters and dots. -/
def cleanTicker (l : List Char) : List Char :=
  l.filter (fun c => isUpperCh c || c = '.')

/-- Full match of `RATIO_RE = ^(\d{1,3}):1$`. -/
def ratioShape (l : List Char) : Bool :=
  let ds := l.takeWhile isDigitCh
  1 ≤ ds.length && ds.length ≤ 3 && l.drop ds.length = [':', '1']

/-- Helper for `re.sub(r"\s+", " ", ·)`: the flag records whether the
previous char was inside a whitespace run (whose single space was
already emitted). -/
def collapseAux : Bool → List Char → List Char
  | _, [] => []
  | inRun, c :: rest =>
    if isSpaceCh c then
      if inRun then collapseAux true rest
      else ' ' :: collapseAux true rest
    else c :: collapseAux false rest

/-- Model of `re.sub(r"\s+", " ", ·)`: each maximal whitespace run becomes
a single space. -/
def collapseSpaces (s : List Char) : List Char :=
  collapseAux false s

/-- Function `normalize_text`: newlines to spaces, then collapse whitespace runs. -/
def normalize_text (s : List Char) : List Char :=
  collapseSpaces (s.map (fun c => if c = '\n' then ' ' else c))

/-- Word boundary `\b` between an (optional) left char and right char. -/
def bdry (l r : Option Char) : Bool :=
  (l.any isWordChar) != (r.any isWordChar)

/-- One alternative of the ratio-token match: exactly `d` digits followed
by `:1` at the head of `s`. -/
def ratioAlt (s : List Char) (d : Nat) : Option (List Char × Nat) :=
  if (s.take d).length = d && (s.take d).all isDigitCh &&
      (s.drop d).take 2 = [':', '1']
  then some (s.take d, d + 2)
  else none

/-- Prefix match of greedy `(\d{1,3}):1` (digit lengths tried 3, 2, 1):
returns the digit group and the number of consumed chars. -/
def matchRatioHead (s : List Char) : Option (List Char × Nat) :=
  firstSome? [3, 2, 1] (ratioAlt s)

/-- Prefix match (given the char preceding the current position) of the
direct-pass pattern `\b([A-Z0-9\.]{1,6})\b[^:]{0,60}?(\d{1,3}:1)`:
returns raw ticker group, ratio digit group, and consumed length.
Group lengths are tried greedily (6 down to 1), the gap lazily
(0 up to 60), exactly as the backtracking engine does. -/
def directGap (s : List Char) (n m : Nat) :
    Option (List Char × List Char × Nat) :=
  if ((s.drop n).take m).length = m && ((s.drop n).take m).all (· ≠ ':')
  then
    (matchRatioHead (s.drop (n + m))).map
      (fun p => (s.take n, p.1, n + m + p.2))
  else none

/-- One alternative of the direct-pass match: a ticker group of exactly
`n` class chars at the head, a word boundary, then the lazy gap
(`directGap`, tried 0 up to 60) and the ratio token. -/
def directTick (s : List Char) (n : Nat) :
    Option (List Char × List Char × Nat) :=
  if (s.take n).length = n && (s.take n).all isTickClass &&
      bdry (s.take n).getLast? (s.drop n).head?
  then firstSome? (List.range 61) (directGap s n)
  else none

def matchDirectHead (prev : Option Char) (s : List Char) :
    Option (List Char × List Char × Nat) :=
  if bdry prev s.head? then firstSome? [6, 5, 4, 3, 2, 1] (directTick s)
  else none

/-- Leftmost non-overlapping scan of the direct-pass pattern
(`re.findall` semantics): on a match resume at its end, otherwise
advance one char; `prev` tracks the char left of the current position
for `\b`.  Fuel bounds the recursion by the remaining length. -/
def directAux : Nat → Option Char → List Char → List (List Char × List Char)
  | 0, _, _ => []
  | _, _, [] => []
  | fuel + 1, prev, s@(c :: rest) =>
    match matchDirectHead prev s with
    | some (tk, ds, k) =>
      (tk, ds) :: directAux fuel ((s.take k).getLast?) (s.drop k)
    | none => directAux fuel (some c) rest

/-- Model of `re.findall(r"\b([A-Z0-9\.]{1,6})\b[^:]{0,60}?(\d{1,3}:1)", text)`,
with the ratio group reduced to its digits. -/
def directFindAll (s : List Char) : List (List Char × List Char) :=
  directAux s.length none s

/-- Leftmost scan of `re.findall(r"[A-Z0-9\.]{1,10}|\d{1,3}:1", text)`:
ordered alternation, first branch greedy up to 10 chars. -/
def tokenizeAux : Nat → List Char → List (List Char)
  | 0, _ => []
  | _, [] => []
  | fuel + 1, s@(_ :: rest) =>
    let tw := (s.takeWhile isTickClass).take 10
    if tw.isEmpty then
      match matchRatioHead s with
      | some (_, k) => (s.take k) :: tokenizeAux fuel (s.drop k)
      | none => tokenizeAux fuel rest
    else
      tw :: tokenizeAux fuel (s.drop tw.length)

/-- All tokens of the fallback pass. -/
def tokensOf (s : List Char) : List (List Char) :=
  tokenizeAux s.length s

/-- Python dict assignment `d[k] = v`: overwrite in place if the key is
present, else append (insertion order preserved). -/
def dictInsert (d : List (List Char × Nat)) (k : List Char) (v : Nat) :
    List (List Char × Nat) :=
  if d.any (fun p => p.1 = k) then
    d.map (fun p => if p.1 = k then (k, v) else p)
  else d ++ [(k, v)]

/-- Python `d.get(k)` as an option. -/
def dictGet? (d : List (List Char × Nat)) (k : List Char) : Option Nat :=
  (d.find? (fun p => p.1 = k)).map (·.2)

/-- Python `k in d`. -/
def dictContains (d : List (List Char × Nat)) (k : List Char) : Bool :=
  d.any (fun p => p.1 = k)

/-- Body of the direct-pass `for tk, rx in direct:` loop. -/
def directStep (d : List (List Char × Nat)) (p : List Char × List Char) :
    List (List Char × Nat) :=
  let tk := cleanTicker p.1
  if is_ticker_token tk then dictInsert d tk (natOfDigits p.2) else d

/-- Body of the fallback `for tok in tokens:` loop; state is
`(ratios, last_ticker)`. -/
def fallbackStep (st : List (List Char × Nat) × Option (List Char))
    (tok : List Char) : List (List Char × Nat) × Option (List Char) :=
  let (d, last) := st
  if ratioShape tok then
    match last with
    | some t =>
      if dictContains d t then (d, last)
      else (dictInsert d t (natOfDigits (tok.takeWhile isDigitCh)), none)
    | none => (d, last)
  else
    let t := cleanTicker tok
    if is_ticker_token t then (d, some t) else (d, last)

/-- Function `parse_ratios_from_text`: normalize, direct pass, then (when fewer
than 100 entries were captured) the token-pairing fallback pass. -/
def parse_ratios_from_text (text : List Char) : List (List Char × Nat) :=
  let t := normalize_text text
  let ratios := (directFindAll t).foldl directStep []
  if ratios.length < 100 then
    ((tokensOf t).foldl fallbackStep (ratios, none)).1
  else ratios

/-- Function `parse_ratios_from_pdf_bytes`: parse the pdfminer extraction;
if it yields fewer than 100 entries, also parse the PyMuPDF extraction and
keep whichever table is strictly larger (ties keep the first).  The two
extraction backends are external libraries, so they are parameters, and
document bytes are an arbitrary type `B`. -/
def parse_ratios_from_pdf_bytes {B : Type}
    (extract_text_pdfminer extract_text_pymupdf : B → List Char)
    (pdf_bytes : B) : List (List Char × Nat) :=
  let ratios1 := parse_ratios_from_text (extract_text_pdfminer pdf_bytes)
  if 100 ≤ ratios1.length then ratios1
  else
    let ratios2 := parse_ratios_from_text (extract_text_pymupdf pdf_bytes)
    if ratios1.length < ratios2.length then ratios2
    else ratios1

/-- The `DEFAULT_DRIVE_URL` constant of `app.py`. -/
def DEFAULT_DRIVE_URL : List Char :=
  ("https://drive.google.com/uc?id=134hLt7AEujGcoPHhlywLS6ifUGxH-Jw7" ++
   "&export=download").toList

/-- Function `load_ratios_from_source`: dispatch on the mode string; the
network fetch (`fetch_bytes_from_url`), the extraction backends and the
session-state upload bytes (`st.session_state["_upload_pdf_bytes"]`) are
external effects, modelled as parameters. -/
def load_ratios_from_source {B : Type}
    (extract_text_pdfminer extract_text_pymupdf : B → List Char)
    (fetch_bytes_from_url : List Char → B)
    (upload_pdf_bytes : B)
    (mode source : List Char) : List (List Char × Nat) :=
  if mode = "drive_default".toList then
    parse_ratios_from_pdf_bytes extract_text_pdfminer extract_text_pymupdf
      (fetch_bytes_from_url DEFAULT_DRIVE_URL)
  else if mode = "url".toList then
    parse_ratios_from_pdf_bytes extract_text_pdfminer extract_text_pymupdf
      (fetch_bytes_from_url source)
  else if mode = "upload".toList then
    parse_ratios_from_pdf_bytes extract_text_pdfminer extract_text_pymupdf
      upload_pdf_bytes
  else []

/-- Nearest integer with ties to even, the rounding Python's `round` uses;
stated over exact rationals. -/
def roundHalfEven (q : ℚ) : ℤ :=
  if q - ⌊q⌋ < 1 / 2 then ⌊q⌋
  else if (1 : ℚ) / 2 < q - ⌊q⌋ then ⌊q⌋ + 1
  else if 2 ∣ ⌊q⌋ then ⌊q⌋ else ⌊q⌋ + 1

/-- Model of Python `round(x, 2)` over exact rationals. -/
def round2 (q : ℚ) : ℚ := (roundHalfEven (q * 100) : ℚ) / 100

/-- Function `calcular_precio_cedear`.  The two market-data fetches
(`get_stock_price_usd`, already rounded to 2 decimals by its own code, and
the cached `get_ccl_price`) are external effects, modelled as parameters.
Returns `(price_usd, ratio, ccl, precio_ars)` with `none` for Python
`None`. -/
def calcular_precio_cedear (ticker : List Char)
    (ratios : List (List Char × Nat))
    (get_stock_price_usd : List Char → ℚ) (get_ccl_price : ℚ) :
    Option ℚ × Option Nat × Option ℚ × Option ℚ :=
  if ¬ dictContains ratios ticker then (none, none, none, none)
  else
    let price_usd := get_stock_price_usd ticker
    let ratio := (dictGet? ratios ticker).getD 0
    let ccl := get_ccl_price
    if price_usd = 0 ∨ ratio = 0 ∨ ccl = 0 then
      (some price_usd, some ratio, some ccl, none)
    else
      (some price_usd, some ratio, some ccl,
        some (round2 (price_usd / ratio * ccl)))

/-- The spec's two-step formula for the home-currency price, transcribed
from the spec's words for comparison with the code:
`round(round(underlying_price / ratio, 2) * rate, 2)`. -/
def spec_two_step_price (underlying_price : ℚ) (ratio : Nat) (rate : ℚ) :
    ℚ :=
  round2 (round2 (underlying_price / ratio) * rate)

/-! ## Helper lemmas -/

theorem round2_eval_lo (q : ℚ) (z : ℤ) (hz : ⌊q * 100⌋ = z)
    (hf : q * 100 - z < 1 / 2) : round2 q = (z : ℚ) / 100 := by
  rw [round2, roundHalfEven, hz, if_pos hf]

theorem firstSome?_eq_some {l : List α} {f : α → Option β} {b : β}
    (h : firstSome? l f = some b) : ∃ a ∈ l, f a = some b := by
  induction l with
  | nil => simp [firstSome?] at h
  | cons a l ih =>
    rw [firstSome?] at h
    cases hfa : f a with
    | some b' =>
      rw [hfa] at h
      exact ⟨a, List.mem_cons_self a l, hfa.trans h⟩
    | none =>
      rw [hfa] at h
      obtain ⟨a', ha', hfa'⟩ := ih h
      exact ⟨a', List.mem_cons_of_mem a ha', hfa'⟩

/-- Digit-group facts produced by any successful ratio-token match:
between 1 and 3 chars, all ASCII digits. -/
def DigitGroup (ds : List Char) : Prop :=
  1 ≤ ds.length ∧ ds.length ≤ 3 ∧ ds.all isDigitCh = true

theorem matchRatioHead_digits {s : List Char} {ds : List Char} {k : Nat}
    (h : matchRatioHead s = some (ds, k)) :
    DigitGroup ds := by
  obtain ⟨d, hd, hfd⟩ := firstSome?_eq_some h
  unfold ratioAlt at hfd
  split at hfd
  · rename_i hcond
    simp only [Bool.and_eq_true] at hcond
    obtain ⟨⟨hlen, hall⟩, -⟩ := hcond
    cases hfd
    refine ⟨?_, ?_, hall⟩ <;>
      · have : d = 3 ∨ d = 2 ∨ d = 1 := by simpa using hd
        have hlen' : (s.take d).length = d := by simpa using hlen
        omega
  · exact absurd hfd (by simp)

theorem matchRatioHead_head_digit {s : List Char} {ds : List Char} {k : Nat}
    (h : matchRatioHead s = some (ds, k)) :
    ∃ c rest, s = c :: rest ∧ isDigitCh c = true := by
  obtain ⟨d, hd, hfd⟩ := firstSome?_eq_some h
  unfold ratioAlt at hfd
  split at hfd
  · rename_i hcond
    simp only [Bool.and_eq_true] at hcond
    obtain ⟨⟨hlen, hall⟩, -⟩ := hcond
    have hd' : d = 3 ∨ d = 2 ∨ d = 1 := by simpa using hd
    have hlen' : (s.take d).length = d := by simpa using hlen
    cases s with
    | nil => simp at hlen'; omega
    | cons c rest =>
      refine ⟨c, rest, rfl, ?_⟩
      have hc : c ∈ (c :: rest).take d := by
        cases hd' with
        | inl h3 => subst h3; simp [List.take]
        | inr h21 => cases h21 with
          | inl h2 => subst h2; simp [List.take]
          | inr h1 => subst h1; simp [List.take]
      exact List.all_eq_true.mp (by simpa using hall) c hc
  · exact absurd hfd (by simp)

theorem natOfDigits_foldl_lt (ds : List Char) :
    ∀ n : Nat, ds.all isDigitCh = true →
      ds.foldl (fun n c => n * 10 + (c.toNat - '0'.toNat)) n <
        (n + 1) * 10 ^ ds.length := by
  induction ds with
  | nil => intro n _; simp
  | cons c ds ih =>
    intro n hall
    rw [List.all_cons, Bool.and_eq_true] at hall
    obtain ⟨hc, hall'⟩ := hall
    have hdig : c.toNat - '0'.toNat ≤ 9 := by
      rw [isDigitCh, Bool.and_eq_true] at hc
      obtain ⟨h1, h2⟩ := hc
      have h1' := of_decide_eq_true h1
      have h2' := of_decide_eq_true h2
      have h0 : '0'.toNat = 48 := rfl
      omega
    have step := ih (n * 10 + (c.toNat - '0'.toNat)) hall'
    calc (c :: ds).foldl (fun n c => n * 10 + (c.toNat - '0'.toNat)) n
        = ds.foldl (fun n c => n * 10 + (c.toNat - '0'.toNat))
            (n * 10 + (c.toNat - '0'.toNat)) := rfl
      _ < (n * 10 + (c.toNat - '0'.toNat) + 1) * 10 ^ ds.length := step
      _ ≤ ((n + 1) * 10) * 10 ^ ds.length := by
          have : n * 10 + (c.toNat - '0'.toNat) + 1 ≤ (n + 1) * 10 := by omega
          exact Nat.mul_le_mul_right _ this
      _ = (n + 1) * 10 ^ (c :: ds).length := by
          rw [List.length_cons, pow_succ]; ring

theorem natOfDigits_le_999 {ds : List Char} (h : DigitGroup ds) :
    natOfDigits ds ≤ 999 := by
  obtain ⟨-, hlen, hall⟩ := h
  have := natOfDigits_foldl_lt ds 0 hall
  have hpow : 10 ^ ds.length ≤ 10 ^ 3 := Nat.pow_le_pow_right (by omega) hlen
  unfold natOfDigits
  omega

theorem mem_dictInsert {d : List (List Char × Nat)} {k : List Char} {v : Nat}
    {p : List Char × Nat} (h : p ∈ dictInsert d k v) :
    p = (k, v) ∨ p ∈ d := by
  unfold dictInsert at h
  split at h
  · obtain ⟨q, hq, hfq⟩ := List.mem_map.mp h
    by_cases hk : q.1 = k
    · rw [if_pos hk] at hfq; exact Or.inl hfq.symm
    · rw [if_neg hk] at hfq; exact Or.inr (hfq ▸ hq)
  · rcases List.mem_append.mp h with h1 | h2
    · exact Or.inr h1
    · exact Or.inl (by simpa using h2)

theorem dictInsert_of_not_contains {d : List (List Char × Nat)}
    {t : List Char} {v : Nat} (h : dictContains d t = false) :
    dictInsert d t v = d ++ [(t, v)] := by
  unfold dictInsert
  rw [if_neg]
  intro hc
  rw [dictContains] at h
  simp only [h] at hc
  exact Bool.false_ne_true hc

theorem dictGet?_append_of_contains {d e : List (List Char × Nat)}
    {k : List Char} (h : dictContains d k = true) :
    dictGet? (d ++ e) k = dictGet? d k := by
  induction d with
  | nil => simp [dictContains] at h
  | cons q d ih =>
    by_cases hqk : q.1 = k
    · simp [dictGet?, List.find?, hqk]
    · have h' : dictContains d k = true := by
        rw [dictContains] at h ⊢
        simpa [hqk] using h
      have := ih h'
      simp only [dictGet?, List.cons_append, List.find?] at this ⊢
      rwa [show (q.1 = k : Bool) = false by simpa using hqk]

theorem dictContains_append_left {d e : List (List Char × Nat)}
    {k : List Char} (h : dictContains d k = true) :
    dictContains (d ++ e) k = true := by
  unfold dictContains at h ⊢
  rw [List.any_append, h, Bool.true_or]

theorem matchDirectHead_digits {prev : Option Char} {s tk ds : List Char}
    {k : Nat} (h : matchDirectHead prev s = some (tk, ds, k)) :
    DigitGroup ds := by
  unfold matchDirectHead at h
  split at h
  · obtain ⟨n, -, hn⟩ := firstSome?_eq_some h
    unfold directTick at hn
    split at hn
    · obtain ⟨m, -, hm⟩ := firstSome?_eq_some hn
      unfold directGap at hm
      split at hm
      · obtain ⟨p, hp, hfp⟩ := Option.map_eq_some'.mp hm
        obtain ⟨ds', k'⟩ := p
        cases hfp
        exact matchRatioHead_digits hp
      · exact absurd hm (by simp)
    · exact absurd hn (by simp)
  · exact absurd h (by simp)

theorem directAux_digits (fuel : Nat) :
    ∀ (prev : Option Char) (s : List Char) (p : List Char × List Char),
      p ∈ directAux fuel prev s → DigitGroup p.2 := by
  induction fuel with
  | zero => intro prev s p h; simp [directAux] at h
  | succ n ih =>
    intro prev s p h
    cases s with
    | nil => simp [directAux] at h
    | cons c rest =>
      rw [directAux] at h
      cases hm : matchDirectHead prev (c :: rest) with
      | none => rw [hm] at h; exact ih _ _ _ h
      | some trip =>
        obtain ⟨tk, ds, k⟩ := trip
        rw [hm] at h
        rcases List.mem_cons.mp h with h1 | h2
        · rw [h1]; exact matchDirectHead_digits hm
        · exact ih _ _ _ h2

/-- The invariant maintained by both parsing passes on every table entry:
the key passed the ticker filter and the value came from a 1-3 digit
group. -/
def EntryInv (p : List Char × Nat) : Prop :=
  is_ticker_token p.1 = true ∧ p.2 ≤ 999

theorem directStep_accept {d : List (List Char × Nat)}
    {q : List Char × List Char}
    (h : is_ticker_token (cleanTicker q.1) = true) :
    directStep d q = dictInsert d (cleanTicker q.1) (natOfDigits q.2) := by
  simp [directStep, h]

theorem directStep_reject {d : List (List Char × Nat)}
    {q : List Char × List Char}
    (h : is_ticker_token (cleanTicker q.1) = false) :
    directStep d q = d := by
  simp [directStep, h]

theorem fallbackStep_ratio_none {d : List (List Char × Nat)}
    {tok : List Char} (h : ratioShape tok = true) :
    fallbackStep (d, none) tok = (d, none) := by
  simp [fallbackStep, h]

theorem fallbackStep_ratio_bound {d : List (List Char × Nat)}
    {t tok : List Char} (h : ratioShape tok = true)
    (hc : dictContains d t = true) :
    fallbackStep (d, some t) tok = (d, some t) := by
  simp [fallbackStep, h, hc]

theorem fallbackStep_ratio_insert {d : List (List Char × Nat)}
    {t tok : List Char} (h : ratioShape tok = true)
    (hc : dictContains d t = false) :
    fallbackStep (d, some t) tok =
      (dictInsert d t (natOfDigits (tok.takeWhile isDigitCh)), none) := by
  simp [fallbackStep, h, hc]

theorem fallbackStep_tick {d : List (List Char × Nat)}
    {last : Option (List Char)} {tok : List Char}
    (h : ratioShape tok = false)
    (ht : is_ticker_token (cleanTicker tok) = true) :
    fallbackStep (d, last) tok = (d, some (cleanTicker tok)) := by
  simp [fallbackStep, h, ht]

theorem fallbackStep_skip {d : List (List Char × Nat)}
    {last : Option (List Char)} {tok : List Char}
    (h : ratioShape tok = false)
    (ht : is_ticker_token (cleanTicker tok) = false) :
    fallbackStep (d, last) tok = (d, last) := by
  simp [fallbackStep, h, ht]

theorem ratioShape_digits {tok : List Char} (h : ratioShape tok = true) :
    DigitGroup (tok.takeWhile isDigitCh) := by
  unfold ratioShape at h
  simp only [Bool.and_eq_true, decide_eq_true_eq] at h
  refine ⟨h.1.1, h.1.2, ?_⟩
  rw [List.all_eq_true]
  intro c hc
  exact List.mem_takeWhile_imp hc

theorem foldl_directStep_inv (l : List (List Char × List Char))
    (hl : ∀ q ∈ l, DigitGroup q.2) :
    ∀ d : List (List Char × Nat), (∀ p ∈ d, EntryInv p) →
      ∀ p ∈ l.foldl directStep d, EntryInv p := by
  induction l with
  | nil => intro d hd p hp; exact hd p hp
  | cons q l ih =>
    intro d hd p hp
    rw [List.foldl_cons] at hp
    refine ih (fun q' hq' => hl q' (List.mem_cons_of_mem _ hq')) _ ?_ p hp
    intro p' hp'
    by_cases htk : is_ticker_token (cleanTicker q.1) = true
    · rw [directStep_accept htk] at hp'
      rcases mem_dictInsert hp' with h1 | h2
      · exact h1 ▸ ⟨htk, natOfDigits_le_999 (hl q (List.mem_cons_self _ _))⟩
      · exact hd p' h2
    · rw [directStep_reject (Bool.not_eq_true _ ▸ htk)] at hp'
      exact hd p' hp'

theorem foldl_fallbackStep_inv (toks : List (List Char)) :
    ∀ st : List (List Char × Nat) × Option (List Char),
      (∀ p ∈ st.1, EntryInv p) →
      (∀ t, st.2 = some t → is_ticker_token t = true) →
      ∀ p ∈ (toks.foldl fallbackStep st).1, EntryInv p := by
  induction toks with
  | nil => intro st hd _ p hp; exact hd p hp
  | cons tok toks ih =>
    intro st hd hlast p hp
    rw [List.foldl_cons] at hp
    obtain ⟨d, last⟩ := st
    by_cases hratio : ratioShape tok = true
    · cases last with
      | none =>
        rw [fallbackStep_ratio_none hratio] at hp
        exact ih _ hd hlast p hp
      | some t =>
        by_cases hc : dictContains d t = true
        · rw [fallbackStep_ratio_bound hratio hc] at hp
          exact ih _ hd hlast p hp
        · rw [fallbackStep_ratio_insert hratio
            (Bool.not_eq_true _ ▸ hc)] at hp
          refine ih (dictInsert d t (natOfDigits (tok.takeWhile isDigitCh)),
            none) ?_ (by simp) p hp
          intro p' hp'
          rcases mem_dictInsert hp' with h1 | h2
          · exact h1 ▸ ⟨hlast t rfl, natOfDigits_le_999 (ratioShape_digits hratio)⟩
          · exact hd p' h2
    · have hratio' : ratioShape tok = false := Bool.not_eq_true _ ▸ hratio
      by_cases htick : is_ticker_token (cleanTicker tok) = true
      · rw [fallbackStep_tick hratio' htick] at hp
        refine ih (d, some (cleanTicker tok)) hd ?_ p hp
        intro t ht
        cases ht
        exact htick
      · rw [fallbackStep_skip hratio' (Bool.not_eq_true _ ▸ htick)] at hp
        exact ih _ hd hlast p hp

/-- Master invariant: every entry of the table built by
`parse_ratios_from_text` passed the ticker filter and carries a value of
at most 3 digits. -/
theorem parse_ratios_from_text_entryInv (text : List Char) :
    ∀ p ∈ parse_ratios_from_text text, EntryInv p := by
  intro p hp
  simp only [parse_ratios_from_text] at hp
  have hdirect : ∀ p' ∈ (directFindAll (normalize_text text)).foldl
      directStep [], EntryInv p' :=
    foldl_directStep_inv _
      (fun q hq => directAux_digits _ _ _ q hq) [] (by simp)
  split at hp
  · exact foldl_fallbackStep_inv _ _ hdirect (by simp) p hp
  · exact hdirect p hp

theorem foldl_fallbackStep_preserves (toks : List (List Char)) :
    ∀ (st : List (List Char × Nat) × Option (List Char)) (k : List Char),
      dictContains st.1 k = true →
      dictGet? ((toks.foldl fallbackStep st).1) k = dictGet? st.1 k := by
  induction toks with
  | nil => intro st k _; rfl
  | cons tok toks ih =>
    intro st k hk
    rw [List.foldl_cons]
    obtain ⟨d, last⟩ := st
    by_cases hratio : ratioShape tok = true
    · cases last with
      | none => rw [fallbackStep_ratio_none hratio]; exact ih _ k hk
      | some t =>
        by_cases hc : dictContains d t = true
        · rw [fallbackStep_ratio_bound hratio hc]; exact ih _ k hk
        · rw [fallbackStep_ratio_insert hratio (Bool.not_eq_true _ ▸ hc),
            dictInsert_of_not_contains (Bool.not_eq_true _ ▸ hc)]
          have hk' : dictContains
              (d ++ [(t, natOfDigits (tok.takeWhile isDigitCh))]) k = true :=
            dictContains_append_left hk
          exact (ih _ k hk').trans (dictGet?_append_of_contains hk)
    · have hratio' : ratioShape tok = false := Bool.not_eq_true _ ▸ hratio
      by_cases htick : is_ticker_token (cleanTicker tok) = true
      · rw [fallbackStep_tick hratio' htick]; exact ih _ k hk
      · rw [fallbackStep_skip hratio' (Bool.not_eq_true _ ▸ htick)]
        exact ih _ k hk

theorem tokenizeAux_all_tick (fuel : Nat) :
    ∀ (s : List Char) (tok : List Char), tok ∈ tokenizeAux fuel s →
      tok.all isTickClass = true := by
  induction fuel with
  | zero => intro s tok h; simp [tokenizeAux] at h
  | succ n ih =>
    intro s tok h
    cases s with
    | nil => simp [tokenizeAux] at h
    | cons c rest =>
      rw [tokenizeAux] at h
      by_cases htw : (((c :: rest).takeWhile isTickClass).take 10).isEmpty
      · rw [if_pos htw] at h
        cases hm : matchRatioHead (c :: rest) with
        | none => rw [hm] at h; exact ih _ _ h
        | some p =>
          exfalso
          obtain ⟨c2, rest2, heq, hdig⟩ := matchRatioHead_head_digit
            (show matchRatioHead (c :: rest) = some (p.1, p.2) from hm)
          injection heq with e1 e2
          subst e1
          have htick : isTickClass c = true := by
            simp [isTickClass, hdig]
          rw [List.takeWhile_cons, if_pos htick] at htw
          simp at htw
      · rw [if_neg htw] at h
        rcases List.mem_cons.mp h with h1 | h2
        · rw [h1, List.all_eq_true]
          intro a ha
          exact List.mem_takeWhile_imp (List.take_subset _ _ ha)
        · exact ih _ _ h2

theorem ratioShape_false_of_all_tick {tok : List Char}
    (h : tok.all isTickClass = true) : ratioShape tok = false := by
  by_contra h'
  rw [Bool.not_eq_false] at h'
  unfold ratioShape at h'
  simp only [Bool.and_eq_true, decide_eq_true_eq] at h'
  obtain ⟨-, hdrop⟩ := h'
  have hcolon : ':' ∈ tok :=
    List.drop_subset _ _ (hdrop ▸ List.mem_cons_self ':' ['1'])
  have := List.all_eq_true.mp h ':' hcolon
  simp [isTickClass, isUpperCh, isDigitCh] at this

/-- The fallback pass of `parse_ratios_from_text` never adds an entry: its
ratio alternative `\d{1,3}:1` is unreachable, because the tokenizer's
first alternative `[A-Z0-9\.]{1,10}` already consumes the leading digits
of any would-be ratio token, so no emitted token contains a colon. -/
theorem fallback_fold_fst_eq (toks : List (List Char))
    (h : ∀ tok ∈ toks, ratioShape tok = false) :
    ∀ st : List (List Char × Nat) × Option (List Char),
      (toks.foldl fallbackStep st).1 = st.1 := by
  induction toks with
  | nil => intro st; rfl
  | cons tok toks ih =>
    intro st
    rw [List.foldl_cons]
    obtain ⟨d, last⟩ := st
    have hratio : ratioShape tok = false := h tok (List.mem_cons_self _ _)
    by_cases htick : is_ticker_token (cleanTicker tok) = true
    · rw [fallbackStep_tick hratio htick]
      exact ih (fun t ht => h t (List.mem_cons_of_mem _ ht)) _
    · rw [fallbackStep_skip hratio (Bool.not_eq_true _ ▸ htick)]
      exact ih (fun t ht => h t (List.mem_cons_of_mem _ ht)) _

theorem foldl_directStep_id (l : List (List Char × List Char))
    (h : ∀ q ∈ l, is_ticker_token (cleanTicker q.1) = false) :
    ∀ d : List (List Char × Nat), l.foldl directStep d = d := by
  induction l with
  | nil => intro d; rfl
  | cons q l ih =>
    intro d
    rw [List.foldl_cons, directStep_reject (h q (List.mem_cons_self _ _))]
    exact ih (fun q' hq' => h q' (List.mem_cons_of_mem _ hq')) d

/-! ## Claim theorems -/

/-- C1 (amended): for a symbol in the table with positive price, ratio and
rate, the home-currency price is computed with a single rounding at the
end, `round(price_usd / ratio * ccl, 2)`; no intermediate 2-decimal
rounding of the receipt-currency price is performed. -/
theorem C1_single_rounding (ticker : List Char)
    (ratios : List (List Char × Nat))
    (price : List Char → ℚ) (ccl : ℚ)
    (hmem : dictContains ratios ticker = true)
    (hp : 0 < price ticker)
    (hr : 0 < (dictGet? ratios ticker).getD 0)
    (hc : 0 < ccl) :
    calcular_precio_cedear ticker ratios price ccl =
      (some (price ticker), some ((dictGet? ratios ticker).getD 0), some ccl,
        some (round2 (price ticker /
          (((dictGet? ratios ticker).getD 0 : ℕ) : ℚ) * ccl))) := by
  have hcond : ¬ (price ticker = 0 ∨
      (dictGet? ratios ticker).getD 0 = 0 ∨ ccl = 0) := by
    push_neg
    exact ⟨ne_of_gt hp, Nat.pos_iff_ne_zero.mp hr, ne_of_gt hc⟩
  simp only [calcular_precio_cedear, hmem, Bool.true_eq_false,
    not_true_eq_false, if_false, if_neg hcond]

/-- Witness for C1 (amended) at a concrete input: `AAPL` with ratio 3,
price 1, rate 100. -/
theorem C1_single_rounding_witness :
    calcular_precio_cedear ("AAPL".toList) [("AAPL".toList, 3)]
      (fun _ => 1) 100 =
      (some 1, some 3, some 100,
        some (round2 ((1 : ℚ) / (((3 : ℕ)) : ℚ) * 100))) :=
  C1_single_rounding ("AAPL".toList) [("AAPL".toList, 3)] (fun _ => 1) 100
    (by decide) (by norm_num) (by decide) (by norm_num)

/-- Counterexample to C1 as stated: at price 1, ratio 3, rate 100 the code
returns `33.33` ARS (single rounding of `100/3`), while the claimed
two-step formula `round(round(1/3, 2) * 100, 2)` gives `33.00`. -/
theorem C1_counterexample :
    calcular_precio_cedear ("AAPL".toList) [("AAPL".toList, 3)]
      (fun _ => 1) 100 =
      (some 1, some 3, some 100, some ((3333 : ℚ) / 100)) ∧
    spec_two_step_price 1 3 100 = 33 ∧
    ((3333 : ℚ) / 100) ≠ 33 := by
  refine ⟨?_, ?_, by norm_num⟩
  · rw [calcular_precio_cedear]
    norm_num [dictContains, dictGet?]
    rw [round2_eval_lo ((100 : ℚ) / 3) 3333
      (by rw [Int.floor_eq_iff] ; norm_num) (by norm_num)]
    norm_num
  · rw [spec_two_step_price,
      round2_eval_lo ((1 : ℚ) / ((3 : ℕ) : ℚ)) 33
        (by rw [Int.floor_eq_iff] ; norm_num) (by norm_num)]
    rw [round2_eval_lo _ 3300 (by rw [Int.floor_eq_iff] ; norm_num)
      (by norm_num)]
    norm_num

/-- C4: for a symbol present in the ratio table, if the fetched underlying
price, the stored ratio, or the fetched CCL rate is exactly zero, the
calculator returns the inputs populated and the derived ARS price absent
(`none`), never a derived price of `0.00`. -/
theorem C4_zero_guard (ticker : List Char) (ratios : List (List Char × Nat))
    (price : List Char → ℚ) (ccl : ℚ)
    (hmem : dictContains ratios ticker = true)
    (hz : price ticker = 0 ∨ (dictGet? ratios ticker).getD 0 = 0 ∨ ccl = 0) :
    calcular_precio_cedear ticker ratios price ccl =
      (some (price ticker), some ((dictGet? ratios ticker).getD 0),
        some ccl, none) := by
  simp only [calcular_precio_cedear, hmem, Bool.true_eq_false,
    not_true_eq_false, if_false, if_pos hz, if_true]

/-- Witness for C4 at a concrete input: `AAPL` is in the table with ratio 3,
the fetched price is `0`, the rate is `100`. -/
theorem C4_zero_guard_witness :
    calcular_precio_cedear ("AAPL".toList) [("AAPL".toList, 3)]
      (fun _ => 0) 100 = (some 0, some 3, some 100, none) :=
  C4_zero_guard ("AAPL".toList) [("AAPL".toList, 3)] (fun _ => 0) 100
    (by decide) (Or.inl rfl)

/-- C5: for a symbol absent from the ratio table, the calculator returns
all four components `none`, and the result does not depend on the
underlying-price fetch or the CCL fetch (they are never consulted). -/
theorem C5_unknown_symbol (ticker : List Char)
    (ratios : List (List Char × Nat))
    (price₁ price₂ : List Char → ℚ) (ccl₁ ccl₂ : ℚ)
    (h : dictContains ratios ticker = false) :
    calcular_precio_cedear ticker ratios price₁ ccl₁ =
      (none, none, none, none) ∧
    calcular_precio_cedear ticker ratios price₁ ccl₁ =
      calcular_precio_cedear ticker ratios price₂ ccl₂ := by
  constructor <;> simp only [calcular_precio_cedear, h, Bool.false_eq_true,
    not_false_eq_true, if_true]

/-- Witness for C5 at a concrete input: `MELI` is not in the table; two
different fetch environments give the same all-`none` result. -/
theorem C5_unknown_symbol_witness :
    calcular_precio_cedear ("MELI".toList) [("AAPL".toList, 10)]
      (fun _ => 7) 900 = (none, none, none, none) ∧
    calcular_precio_cedear ("MELI".toList) [("AAPL".toList, 10)]
      (fun _ => 7) 900 =
    calcular_precio_cedear ("MELI".toList) [("AAPL".toList, 10)]
      (fun _ => 12) 1100 :=
  C5_unknown_symbol ("MELI".toList) [("AAPL".toList, 10)]
    (fun _ => 7) (fun _ => 12) 900 1100 (by decide)

/-- C6: the PDF loader parses the pdfminer extraction first; when that
table reaches 100 entries the result is that table and the PyMuPDF
backend is irrelevant (never parsed); otherwise the PyMuPDF extraction is
parsed as well and the result is the strictly larger table, ties keeping
the pdfminer one. -/
theorem C6_two_strategy {B : Type} (eA eB eB' : B → List Char) (pdf : B) :
    (100 ≤ (parse_ratios_from_text (eA pdf)).length →
      parse_ratios_from_pdf_bytes eA eB pdf =
        parse_ratios_from_text (eA pdf) ∧
      parse_ratios_from_pdf_bytes eA eB pdf =
        parse_ratios_from_pdf_bytes eA eB' pdf) ∧
    ((parse_ratios_from_text (eA pdf)).length < 100 →
      ((parse_ratios_from_text (eA pdf)).length <
          (parse_ratios_from_text (eB pdf)).length →
        parse_ratios_from_pdf_bytes eA eB pdf =
          parse_ratios_from_text (eB pdf)) ∧
      ((parse_ratios_from_text (eB pdf)).length ≤
          (parse_ratios_from_text (eA pdf)).length →
        parse_ratios_from_pdf_bytes eA eB pdf =
          parse_ratios_from_text (eA pdf))) := by
  constructor
  · intro h
    constructor <;> simp only [parse_ratios_from_pdf_bytes, if_pos h]
  · intro h
    have h' : ¬ 100 ≤ (parse_ratios_from_text (eA pdf)).length :=
      Nat.not_le.mpr h
    constructor
    · intro h2
      simp only [parse_ratios_from_pdf_bytes, if_neg h', if_pos h2]
    · intro h2
      simp only [parse_ratios_from_pdf_bytes, if_neg h',
        if_neg (Nat.not_lt.mpr h2)]

/-- Witness for C6 at a concrete input: strategy A extracts no pairs
(0 < 100 entries), strategy B extracts one pair, so B's strictly larger
table is returned. -/
theorem C6_two_strategy_witness :
    parse_ratios_from_pdf_bytes (fun _ : List Char => [])
      (fun _ => "NVDA 24:1".toList) [] = [("NVDA".toList, 24)] := by
  have h := (C6_two_strategy (fun _ : List Char => [])
    (fun _ => "NVDA 24:1".toList) (fun _ => []) []).2 (by decide)
  exact (h.1 (by decide)).trans (by decide)

/-- C9: in upload mode the loader's result is determined entirely by the
stored upload bytes: it does not depend on the cache-key argument (nor on
the URL fetcher, which is never consulted). -/
theorem C9_upload_key_independent {B : Type} (eA eB : B → List Char)
    (fetch₁ fetch₂ : List Char → B) (up : B) (k₁ k₂ : List Char) :
    load_ratios_from_source eA eB fetch₁ up ("upload".toList) k₁ =
    load_ratios_from_source eA eB fetch₂ up ("upload".toList) k₂ := rfl

/-- C10: for any mode other than `drive_default`, `url` and `upload`, the
loader returns the empty mapping, independently of the fetcher, the
upload bytes and the extraction backends (none of them is consulted). -/
theorem C10_unknown_mode {B : Type} (eA eB eA' eB' : B → List Char)
    (fetch fetch' : List Char → B) (up up' : B) (mode source : List Char)
    (h1 : mode ≠ "drive_default".toList) (h2 : mode ≠ "url".toList)
    (h3 : mode ≠ "upload".toList) :
    load_ratios_from_source eA eB fetch up mode source = [] ∧
    load_ratios_from_source eA eB fetch up mode source =
      load_ratios_from_source eA' eB' fetch' up' mode source := by
  constructor <;>
    simp only [load_ratios_from_source, if_neg h1, if_neg h2, if_neg h3]

/-- Witness for C10 at a concrete input: the unknown mode `bogus` yields
the empty table in two different environments. -/
theorem C10_unknown_mode_witness :
    load_ratios_from_source (fun _ : List Char => []) (fun _ => [])
      (fun _ => []) [] ("bogus".toList) [] = [] ∧
    load_ratios_from_source (fun _ : List Char => []) (fun _ => [])
      (fun _ => []) [] ("bogus".toList) [] =
    load_ratios_from_source (fun _ => "AAPL 20:1".toList)
      (fun _ => "AAPL 20:1".toList) (fun _ => "X".toList) ("Y".toList)
      ("bogus".toList) [] :=
  C10_unknown_mode (fun _ : List Char => []) (fun _ => [])
    (fun _ => "AAPL 20:1".toList) (fun _ => "AAPL 20:1".toList)
    (fun _ => []) (fun _ => "X".toList) [] ("Y".toList)
    ("bogus".toList) [] (by decide) (by decide) (by decide)

theorem tokensOf_all_tick (s : List Char) :
    ∀ tok ∈ tokensOf s, tok.all isTickClass = true := by
  intro tok ht
  rw [tokensOf] at ht
  exact tokenizeAux_all_tick _ _ tok ht

/-- C2 (amended): the direct pass keeps the ratio of the LAST detection of
a symbol — a later duplicate overwrites the accepted entry, so
`"AAPL 20:1 AAPL 30:1"` maps `AAPL` to 30, not 20; only the fallback pass
never overwrites: it leaves every binding already in the table unchanged. -/
theorem C2_overwrite_direct_first_wins_fallback :
    dictGet? (parse_ratios_from_text ("AAPL 20:1 AAPL 30:1".toList))
      ("AAPL".toList) = some 30 ∧
    ∀ (toks : List (List Char)) (d : List (List Char × Nat))
      (last : Option (List Char)) (k : List Char),
      dictContains d k = true →
      dictGet? ((toks.foldl fallbackStep (d, last)).1) k = dictGet? d k := by
  constructor
  · decide
  · intro toks d last k hk
    exact foldl_fallbackStep_preserves toks (d, last) k hk

/-- Witness for C2 (amended) at a concrete input: a fallback run over the
token `5:1` with a pending candidate `B` leaves the existing binding of
`A` untouched. -/
theorem C2_overwrite_witness :
    dictGet? ((["5:1".toList].foldl fallbackStep
      ([("A".toList, 1)], some ("B".toList))).1) ("A".toList) =
    dictGet? [("A".toList, 1)] ("A".toList) :=
  C2_overwrite_direct_first_wins_fallback.2 ["5:1".toList]
    [("A".toList, 1)] (some ("B".toList)) ("A".toList) (by decide)

/-- Counterexample to C2 as stated: parsing `"AAPL 20:1 AAPL 30:1"` yields
`AAPL -> 30` — the later direct-pass match overwrote the earlier one,
against the claimed first-occurrence-wins. -/
theorem C2_counterexample :
    dictGet? (parse_ratios_from_text ("AAPL 20:1 AAPL 30:1".toList))
      ("AAPL".toList) = some 30 ∧
    dictGet? (parse_ratios_from_text ("AAPL 20:1 AAPL 30:1".toList))
      ("AAPL".toList) ≠ some 20 := by
  exact ⟨by decide, by decide⟩

/-- C3 (amended): every ratio value stored by the parser has at most 3
digits, i.e. is at most 999; the claimed lower bound 1 does not hold
(`0:1` is accepted, see the counterexample). -/
theorem C3_ratio_le_999 (text : List Char) :
    ∀ p ∈ parse_ratios_from_text text, p.2 ≤ 999 :=
  fun p hp => (parse_ratios_from_text_entryInv text p hp).2

/-- Witness for C3 (amended) at a concrete input: the entry `AAPL -> 7`
parsed from `"AAPL 7:1"` is bounded by 999. -/
theorem C3_ratio_le_999_witness : (7 : Nat) ≤ 999 :=
  C3_ratio_le_999 ("AAPL 7:1".toList) ("AAPL".toList, 7) (by decide)

/-- Counterexample to C3 as stated: the text `"AAPL 0:1"` is parsed to the
table `{AAPL: 0}` — the ratio token `0:1` IS accepted and stores the
non-positive ratio 0. -/
theorem C3_counterexample :
    parse_ratios_from_text ("AAPL 0:1".toList) = [("AAPL".toList, 0)] ∧
    ¬ (1 ≤ (0 : Nat)) :=
  ⟨by decide, by decide⟩

/-- C7: every key of a parsed table matches the ticker shape
(1–6 uppercase letters, optional dot suffix of 1–2 letters) and is not a
stopword; in particular `USD` and `NASDAQ` are never keys. -/
theorem C7_key_shape (text : List Char) :
    (∀ p ∈ parse_ratios_from_text text,
      tickerShape p.1 = true ∧ STOPWORDS.contains p.1 = false) ∧
    dictContains (parse_ratios_from_text text) ("USD".toList) = false ∧
    dictContains (parse_ratios_from_text text) ("NASDAQ".toList) = false := by
  have hmain : ∀ p ∈ parse_ratios_from_text text,
      tickerShape p.1 = true ∧ STOPWORDS.contains p.1 = false := by
    intro p hp
    have h := (parse_ratios_from_text_entryInv text p hp).1
    rw [is_ticker_token, Bool.and_eq_true, Bool.not_eq_true'] at h
    exact h
  refine ⟨hmain, ?_, ?_⟩ <;>
  · rw [← Bool.not_eq_true]
    intro hc
    rw [dictContains] at hc
    obtain ⟨p, hp, hpk⟩ := List.any_eq_true.mp hc
    have h2 := (hmain p hp).2
    rw [of_decide_eq_true hpk] at h2
    exact absurd h2 (by decide)

/-- Witness for C7 at a concrete input: the key `MSFT` parsed from
`"MSFT 5:1"` has the ticker shape and is not a stopword. -/
theorem C7_key_shape_witness :
    tickerShape ("MSFT".toList) = true ∧
      STOPWORDS.contains ("MSFT".toList) = false :=
  (C7_key_shape ("MSFT 5:1".toList)).1 ("MSFT".toList, 5) (by decide)

/-- C8: on any text with no valid symbol-ratio pair — formalized as: no
direct-pass detection survives the ticker filter — the parser returns the
empty table (and, being a total Lean function, it never raises).  The
fallback pass contributes nothing on ANY input: its ratio alternative is
dead code (`fallback_fold_fst_eq` + `tokensOf_all_tick`). -/
theorem C8_empty_on_no_valid_pairs (text : List Char)
    (h : ∀ p ∈ directFindAll (normalize_text text),
      is_ticker_token (cleanTicker p.1) = false) :
    parse_ratios_from_text text = [] := by
  have hdir : (directFindAll (normalize_text text)).foldl directStep []
      = [] := foldl_directStep_id _ h []
  simp only [parse_ratios_from_text, hdir]
  rw [if_pos (by simp)]
  exact fallback_fold_fst_eq _ (fun tok ht =>
    ratioShape_false_of_all_tick (tokensOf_all_tick _ tok ht)) ([], none)

/-- Witness for C8 at a concrete input: `"USD 2:1"` contains a
ratio-shaped token but its only candidate symbol is the stopword `USD`,
so the parse result is empty. -/
theorem C8_empty_witness :
    parse_ratios_from_text ("USD 2:1".toList) = [] :=
  C8_empty_on_no_valid_pairs ("USD 2:1".toList) (by decide)

end Cedear
